import Mathlib

/-!
Shallow embedding of `src/basicMM.py` (class `PolymarketLiquidityBot`): the
quote pricer (`get_mid_price`), the order lifecycle operations
(`place_limit_order`, `cancel_order`), the PnL tracker (`get_pnl`,
`get_rewards_total`) and the strategy loop (`run_strategy`).

External exchange-client calls (`self.client.…`) are modelled as explicit
oracle inputs: an `Except String _` value stands for the outcome of one
external call, the `error` branch being a raised exception carrying
`str(e)`.  Prices and sizes are modelled as rationals, timestamps as
naturals.  The Python code never raises to its callers (every public method
wraps its body in `try/except`), which in the embedding corresponds to the
operations being total functions into explicit result types.
-/

/-- Order / trade side, as used by the exchange client (`BUY` / `SELL`). -/
inductive Side where
  | buy
  | sell
deriving DecidableEq, Repr

/-- Local status of an order in the bot's registry.  The spec's data model
lists `PENDING, LIVE, CANCELED, FAILED`; the code only ever writes the
string statuses `'live'` and `'canceled'`. -/
inductive OrderStatus where
  | pending
  | live
  | canceled
  | failed
deriving DecidableEq, Repr

/-- One order of the public order book returned by
`client.get_orders(OpenOrderParams(...))`: the fields `get_mid_price`
reads (`order['side']`, `float(order['price'])`). -/
structure BookOrder where
  side : Side
  price : ℚ
deriving DecidableEq, Repr

/-- One entry of the bot's order registry `self.orders`, exactly the dict
built in `place_limit_order`. -/
structure Order where
  id : String
  market_id : String
  token_id : String
  side : Side
  size : ℚ
  price : ℚ
  time : ℕ
  status : OrderStatus
deriving DecidableEq, Repr

/-- One trade returned by `client.get_trades(...)`: the fields `get_pnl`
reads.  The status is kept as a raw string since the code compares it to
the literal `'CONFIRMED'` and other values occur. -/
structure Trade where
  side : Side
  size : ℚ
  price : ℚ
  status : String
deriving DecidableEq, Repr

/-- One snapshot appended to `self.pnl_history` by `get_pnl`. -/
structure PnlSnapshot where
  timestamp : ℕ
  realized_pnl : ℚ
  rewards : ℚ
  total_pnl : ℚ
deriving DecidableEq, Repr

/-- The mutable state of a `PolymarketLiquidityBot`: `self.orders` and
`self.pnl_history`.  (`self.markets`, used only by market discovery and the
dashboard, is outside the verified core and carried by no claim.) -/
structure BotState where
  orders : List Order
  pnl_history : List PnlSnapshot
deriving DecidableEq, Repr

/-- The fresh state built by `__init__`: empty registry, empty history. -/
def initBot : BotState := { orders := [], pnl_history := [] }

/-! ## Python `max` / `min` over a list

`max(xs)` on a nonempty Python list folds `max` over the elements from the
left starting at the head; `max(bids, key=lambda x: float(x['price']))`
followed by reading `['price']` yields the same value as folding `max` over
the prices (the argmax's price is the maximal price). -/

/-- Python `max(xs)` for a list of numbers; `none` when the list is empty
(Python would raise). -/
def pyListMax : List ℚ → Option ℚ
  | [] => none
  | p :: ps => some (ps.foldl max p)

/-- Python `min(xs)` for a list of numbers; `none` when the list is empty. -/
def pyListMin : List ℚ → Option ℚ
  | [] => none
  | p :: ps => some (ps.foldl min p)

theorem foldl_max_mem (ps : List ℚ) (a : ℚ) :
    ps.foldl max a = a ∨ ps.foldl max a ∈ ps := by
  induction ps generalizing a with
  | nil => exact Or.inl rfl
  | cons p ps ih =>
    rcases ih (max a p) with h | h
    · rcases max_choice a p with hm | hm
      · exact Or.inl (by rw [List.foldl_cons, h, hm])
      · exact Or.inr (by rw [List.foldl_cons, h, hm]; exact List.mem_cons_self _ _)
    · exact Or.inr (List.mem_cons_of_mem _ h)

theorem le_foldl_max (ps : List ℚ) (a : ℚ) :
    a ≤ ps.foldl max a ∧ ∀ x ∈ ps, x ≤ ps.foldl max a := by
  induction ps generalizing a with
  | nil => exact ⟨le_refl a, by intro x hx; cases hx⟩
  | cons p ps ih =>
    obtain ⟨h1, h2⟩ := ih (max a p)
    refine ⟨le_trans (le_max_left a p) h1, ?_⟩
    intro x hx
    rcases List.mem_cons.mp hx with rfl | hx
    · exact le_trans (le_max_right a x) h1
    · exact h2 x hx

theorem foldl_min_mem (ps : List ℚ) (a : ℚ) :
    ps.foldl min a = a ∨ ps.foldl min a ∈ ps := by
  induction ps generalizing a with
  | nil => exact Or.inl rfl
  | cons p ps ih =>
    rcases ih (min a p) with h | h
    · rcases min_choice a p with hm | hm
      · exact Or.inl (by rw [List.foldl_cons, h, hm])
      · exact Or.inr (by rw [List.foldl_cons, h, hm]; exact List.mem_cons_self _ _)
    · exact Or.inr (List.mem_cons_of_mem _ h)

theorem foldl_min_le (ps : List ℚ) (a : ℚ) :
    ps.foldl min a ≤ a ∧ ∀ x ∈ ps, ps.foldl min a ≤ x := by
  induction ps generalizing a with
  | nil => exact ⟨le_refl a, by intro x hx; cases hx⟩
  | cons p ps ih =>
    obtain ⟨h1, h2⟩ := ih (min a p)
    refine ⟨le_trans h1 (min_le_left a p), ?_⟩
    intro x hx
    rcases List.mem_cons.mp hx with rfl | hx
    · exact le_trans h1 (min_le_right a x)
    · exact h2 x hx

/-- Characterization: `pyListMax` computes exactly the maximal element of its input. -/
theorem pyListMax_eq_some_iff (l : List ℚ) (m : ℚ) :
    pyListMax l = some m ↔ m ∈ l ∧ ∀ x ∈ l, x ≤ m := by
  cases l with
  | nil => simp [pyListMax]
  | cons p ps =>
    simp only [pyListMax, Option.some.injEq]
    constructor
    · rintro rfl
      obtain ⟨h1, h2⟩ := le_foldl_max ps p
      refine ⟨?_, ?_⟩
      · rcases foldl_max_mem ps p with h | h
        · rw [h]; exact List.mem_cons_self _ _
        · exact List.mem_cons_of_mem _ h
      · intro x hx
        rcases List.mem_cons.mp hx with rfl | hx
        · exact h1
        · exact h2 x hx
    · rintro ⟨hmem, hub⟩
      obtain ⟨h1, h2⟩ := le_foldl_max ps p
      have hle : ps.foldl max p ≤ m := by
        rcases foldl_max_mem ps p with h | h
        · rw [h]; exact hub p (List.mem_cons_self _ _)
        · exact hub _ (List.mem_cons_of_mem _ h)
      have hge : m ≤ ps.foldl max p := by
        rcases List.mem_cons.mp hmem with rfl | h
        · exact h1
        · exact h2 m h
      exact le_antisymm hle hge

/-- Characterization: `pyListMin` computes exactly the minimal element of its input. -/
theorem pyListMin_eq_some_iff (l : List ℚ) (m : ℚ) :
    pyListMin l = some m ↔ m ∈ l ∧ ∀ x ∈ l, m ≤ x := by
  cases l with
  | nil => simp [pyListMin]
  | cons p ps =>
    simp only [pyListMin, Option.some.injEq]
    constructor
    · rintro rfl
      obtain ⟨h1, h2⟩ := foldl_min_le ps p
      refine ⟨?_, ?_⟩
      · rcases foldl_min_mem ps p with h | h
        · rw [h]; exact List.mem_cons_self _ _
        · exact List.mem_cons_of_mem _ h
      · intro x hx
        rcases List.mem_cons.mp hx with rfl | hx
        · exact h1
        · exact h2 x hx
    · rintro ⟨hmem, hlb⟩
      obtain ⟨h1, h2⟩ := foldl_min_le ps p
      have hle : m ≤ ps.foldl min p := by
        rcases foldl_min_mem ps p with h | h
        · rw [h]; exact hlb p (List.mem_cons_self _ _)
        · exact hlb _ (List.mem_cons_of_mem _ h)
      have hge : ps.foldl min p ≤ m := by
        rcases List.mem_cons.mp hmem with rfl | h
        · exact h1
        · exact h2 m h
      exact le_antisymm hge hle

theorem pyListMax_eq_none_iff (l : List ℚ) : pyListMax l = none ↔ l = [] := by
  cases l <;> simp [pyListMax]

theorem pyListMin_eq_none_iff (l : List ℚ) : pyListMin l = none ↔ l = [] := by
  cases l <;> simp [pyListMin]

/-! ## Quote pricer: `get_mid_price` -/

/-- The bid side of a fetched book: `[order for order in orders if
order['side'] == 'buy']`. -/
def bookBids (book : List BookOrder) : List BookOrder :=
  book.filter (fun o => o.side == Side.buy)

/-- The ask side of a fetched book: `[order for order in orders if
order['side'] == 'sell']`. -/
def bookAsks (book : List BookOrder) : List BookOrder :=
  book.filter (fun o => o.side == Side.sell)

/-- Body of `get_mid_price` on a successfully fetched book: best bid is the
maximal bid price (`0` when there are no bids), best ask the minimal ask
price (`1` when there are no asks), early-returning `0.5` when both sides
are empty; result is the arithmetic mean. -/
def get_mid_price (book : List BookOrder) : ℚ :=
  let bids := bookBids book
  let asks := bookAsks book
  if bids = [] ∧ asks = [] then
    1/2
  else
    let best_bid_price : ℚ :=
      match pyListMax (bids.map (fun o => o.price)) with
      | none => 0
      | some m => m
    let best_ask_price : ℚ :=
      match pyListMin (asks.map (fun o => o.price)) with
      | none => 1
      | some m => m
    (best_bid_price + best_ask_price) / 2

/-- Full `get_mid_price` including its `try/except` wrapper: a failed
`client.get_orders` call is swallowed and yields the `0.5` fallback. -/
def get_mid_price_result (book : Except String (List BookOrder)) : ℚ :=
  match book with
  | Except.error _ => 1/2
  | Except.ok orders => get_mid_price orders

/-- Modelled from the spec (§4.1/§8 wording, for the refinement claim C3):
"Best bid = maximum bid price present, or 0 if none exist", written with a
right fold instead of the code's left fold. -/
def specBestBid (book : List BookOrder) : ℚ :=
  match (bookBids book).map (fun o => o.price) with
  | [] => 0
  | p :: ps => ps.foldr max p

/-- Modelled from the spec (§4.1/§8 wording, for the refinement claim C3):
"Best ask = minimum ask price present, or 1 if none exist". -/
def specBestAsk (book : List BookOrder) : ℚ :=
  match (bookAsks book).map (fun o => o.price) with
  | [] => 1
  | p :: ps => ps.foldr min p

/-- Modelled from the spec: "`mid_price` returns `(max_bid + min_ask)/2`". -/
def specMid (book : List BookOrder) : ℚ :=
  (specBestBid book + specBestAsk book) / 2

theorem foldr_max_mem (ps : List ℚ) (a : ℚ) :
    ps.foldr max a = a ∨ ps.foldr max a ∈ ps := by
  induction ps with
  | nil => exact Or.inl rfl
  | cons p ps ih =>
    rcases max_choice p (ps.foldr max a) with hm | hm
    · exact Or.inr (by rw [List.foldr_cons, hm]; exact List.mem_cons_self _ _)
    · rcases ih with h | h
      · exact Or.inl (by rw [List.foldr_cons, hm, h])
      · exact Or.inr (by rw [List.foldr_cons, hm]; exact List.mem_cons_of_mem _ h)

theorem le_foldr_max (ps : List ℚ) (a : ℚ) :
    a ≤ ps.foldr max a ∧ ∀ x ∈ ps, x ≤ ps.foldr max a := by
  induction ps with
  | nil => exact ⟨le_refl a, by intro x hx; cases hx⟩
  | cons p ps ih =>
    obtain ⟨h1, h2⟩ := ih
    refine ⟨le_trans h1 (le_max_right _ _), ?_⟩
    intro x hx
    rcases List.mem_cons.mp hx with rfl | hx
    · exact le_max_left _ _
    · exact le_trans (h2 x hx) (le_max_right _ _)

theorem foldr_min_mem (ps : List ℚ) (a : ℚ) :
    ps.foldr min a = a ∨ ps.foldr min a ∈ ps := by
  induction ps with
  | nil => exact Or.inl rfl
  | cons p ps ih =>
    rcases min_choice p (ps.foldr min a) with hm | hm
    · exact Or.inr (by rw [List.foldr_cons, hm]; exact List.mem_cons_self _ _)
    · rcases ih with h | h
      · exact Or.inl (by rw [List.foldr_cons, hm, h])
      · exact Or.inr (by rw [List.foldr_cons, hm]; exact List.mem_cons_of_mem _ h)

theorem foldr_min_le (ps : List ℚ) (a : ℚ) :
    ps.foldr min a ≤ a ∧ ∀ x ∈ ps, ps.foldr min a ≤ x := by
  induction ps with
  | nil => exact ⟨le_refl a, by intro x hx; cases hx⟩
  | cons p ps ih =>
    obtain ⟨h1, h2⟩ := ih
    refine ⟨le_trans (min_le_right _ _) h1, ?_⟩
    intro x hx
    rcases List.mem_cons.mp hx with rfl | hx
    · exact min_le_left _ _
    · exact le_trans (min_le_right _ _) (h2 x hx)

theorem foldl_max_eq_foldr_max (ps : List ℚ) (a : ℚ) :
    ps.foldl max a = ps.foldr max a := by
  obtain ⟨hl1, hl2⟩ := le_foldl_max ps a
  obtain ⟨hr1, hr2⟩ := le_foldr_max ps a
  refine le_antisymm ?_ ?_
  · rcases foldl_max_mem ps a with h | h
    · rw [h]; exact hr1
    · exact hr2 _ h
  · rcases foldr_max_mem ps a with h | h
    · rw [h]; exact hl1
    · exact hl2 _ h

theorem foldl_min_eq_foldr_min (ps : List ℚ) (a : ℚ) :
    ps.foldl min a = ps.foldr min a := by
  obtain ⟨hl1, hl2⟩ := foldl_min_le ps a
  obtain ⟨hr1, hr2⟩ := foldr_min_le ps a
  refine le_antisymm ?_ ?_
  · rcases foldr_min_mem ps a with h | h
    · rw [h]; exact hl1
    · exact hl2 _ h
  · rcases foldl_min_mem ps a with h | h
    · rw [h]; exact hr1
    · exact hr2 _ h

theorem pyListMax_perm (l1 l2 : List ℚ) (hp : List.Perm l1 l2) :
    pyListMax l1 = pyListMax l2 := by
  cases h1 : pyListMax l1 with
  | none =>
    rw [pyListMax_eq_none_iff] at h1
    subst h1
    have h2 : l2 = [] := List.length_eq_zero.mp (by simpa using hp.length_eq.symm)
    rw [h2]
    rfl
  | some m =>
    rw [pyListMax_eq_some_iff] at h1
    exact ((pyListMax_eq_some_iff l2 m).mpr
      ⟨hp.mem_iff.mp h1.1, fun x hx => h1.2 x (hp.mem_iff.mpr hx)⟩).symm

theorem pyListMin_perm (l1 l2 : List ℚ) (hp : List.Perm l1 l2) :
    pyListMin l1 = pyListMin l2 := by
  cases h1 : pyListMin l1 with
  | none =>
    rw [pyListMin_eq_none_iff] at h1
    subst h1
    have h2 : l2 = [] := List.length_eq_zero.mp (by simpa using hp.length_eq.symm)
    rw [h2]
    rfl
  | some m =>
    rw [pyListMin_eq_some_iff] at h1
    exact ((pyListMin_eq_some_iff l2 m).mpr
      ⟨hp.mem_iff.mp h1.1, fun x hx => h1.2 x (hp.mem_iff.mpr hx)⟩).symm

theorem code_best_bid_eq (book : List BookOrder) :
    (match pyListMax ((bookBids book).map (fun o => o.price)) with
     | none => (0 : ℚ)
     | some m => m) = specBestBid book := by
  rcases h : (bookBids book).map (fun o => o.price) with _ | ⟨p, ps⟩
  · simp [specBestBid, pyListMax, h]
  · simp [specBestBid, pyListMax, h, foldl_max_eq_foldr_max]

theorem code_best_ask_eq (book : List BookOrder) :
    (match pyListMin ((bookAsks book).map (fun o => o.price)) with
     | none => (1 : ℚ)
     | some m => m) = specBestAsk book := by
  rcases h : (bookAsks book).map (fun o => o.price) with _ | ⟨p, ps⟩
  · simp [specBestAsk, pyListMin, h]
  · simp [specBestAsk, pyListMin, h, foldl_min_eq_foldr_min]

/-- Claim C3: for every fetched order book, `get_mid_price` returns
`(best_bid + best_ask)/2` where best bid is the maximal bid price (`0` if
no bids) and best ask the minimal ask price (`1` if no asks) — stated as a
refinement against `specMid`, which is written from the spec's words; it
returns exactly `0.5` when there are neither bids nor asks; and the result
is invariant under permutation of the input orders. -/
theorem mid_price_spec :
    (∀ book : List BookOrder, get_mid_price book = specMid book) ∧
    (∀ book : List BookOrder, bookBids book = [] → bookAsks book = [] →
       get_mid_price book = 1/2) ∧
    (∀ b1 b2 : List BookOrder, List.Perm b1 b2 →
       get_mid_price b1 = get_mid_price b2) := by
  refine ⟨?_, ?_, ?_⟩
  · intro book
    by_cases hc : bookBids book = [] ∧ bookAsks book = []
    · simp only [get_mid_price, specMid, if_pos hc, specBestBid, specBestAsk,
        hc.1, hc.2, List.map_nil]
      norm_num
    · simp only [get_mid_price, specMid, if_neg hc]
      rw [code_best_bid_eq, code_best_ask_eq]
  · intro book h1 h2
    simp [get_mid_price, h1, h2]
  · intro b1 b2 hp
    have hbids := hp.filter (fun o => o.side == Side.buy)
    have hasks := hp.filter (fun o => o.side == Side.sell)
    have hb0 : bookBids b1 = [] ↔ bookBids b2 = [] := by
      unfold bookBids
      constructor <;> intro h <;>
        exact List.length_eq_zero.mp (by
          first
          | simpa [h] using hbids.length_eq.symm
          | simpa [h] using hbids.length_eq)
    have ha0 : bookAsks b1 = [] ↔ bookAsks b2 = [] := by
      unfold bookAsks
      constructor <;> intro h <;>
        exact List.length_eq_zero.mp (by
          first
          | simpa [h] using hasks.length_eq.symm
          | simpa [h] using hasks.length_eq)
    have hmax : pyListMax ((bookBids b1).map (fun o => o.price)) =
        pyListMax ((bookBids b2).map (fun o => o.price)) :=
      pyListMax_perm _ _ (hbids.map _)
    have hmin : pyListMin ((bookAsks b1).map (fun o => o.price)) =
        pyListMin ((bookAsks b2).map (fun o => o.price)) :=
      pyListMin_perm _ _ (hasks.map _)
    by_cases hc : bookBids b1 = [] ∧ bookAsks b1 = []
    · have hc2 : bookBids b2 = [] ∧ bookAsks b2 = [] := ⟨hb0.mp hc.1, ha0.mp hc.2⟩
      simp only [get_mid_price, if_pos hc, if_pos hc2]
    · have hc2 : ¬ (bookBids b2 = [] ∧ bookAsks b2 = []) := fun h =>
        hc ⟨hb0.mpr h.1, ha0.mpr h.2⟩
      simp only [get_mid_price, if_neg hc, if_neg hc2]
      rw [hmax, hmin]

theorem mid_price_spec_witness :
    get_mid_price ([] : List BookOrder) = 1/2 ∧
    get_mid_price [⟨Side.buy, 2/5⟩, ⟨Side.sell, 3/5⟩] =
      get_mid_price [⟨Side.sell, 3/5⟩, ⟨Side.buy, 2/5⟩] :=
  ⟨mid_price_spec.2.1 [] rfl rfl,
   mid_price_spec.2.2 _ _
     (List.Perm.swap (⟨Side.sell, 3/5⟩ : BookOrder) (⟨Side.buy, 2/5⟩ : BookOrder) [])⟩

/-- Claim C9, counterexample: the code does not validate the fetched
book's prices, so a book containing a single bid at price `3` makes
`get_mid_price` return `(3 + 1)/2 = 2`, outside `[0, 1]`.  The claim as
stated (the result always lies in `[0,1]`) is therefore false. -/
theorem mid_price_range_counterexample :
    get_mid_price [{ side := Side.buy, price := 3 }] = 2 ∧
    ¬ (0 ≤ get_mid_price [{ side := Side.buy, price := 3 }] ∧
       get_mid_price [{ side := Side.buy, price := 3 }] ≤ 1) := by
  have h : get_mid_price [{ side := Side.buy, price := 3 }] = 2 := by
    have h1 : bookBids [{ side := Side.buy, price := 3 }] =
        [{ side := Side.buy, price := 3 }] := by simp [bookBids]
    have h2 : bookAsks [{ side := Side.buy, price := 3 }] = [] := by
      simp [bookAsks]
    simp only [get_mid_price, h1, h2]
    norm_num [pyListMax, pyListMin]
  rw [h]
  norm_num

/-- Claim C9, amended: whenever every price of the fetched book lies in
`[0, 1]` (as it does for a prediction-market book), `get_mid_price` returns
a value in `[0, 1]`; this also covers the fetch-failure fallback `0.5`. -/
theorem mid_price_range (r : Except String (List BookOrder))
    (h : ∀ book, r = Except.ok book → ∀ o ∈ book, 0 ≤ o.price ∧ o.price ≤ 1) :
    0 ≤ get_mid_price_result r ∧ get_mid_price_result r ≤ 1 := by
  cases r with
  | error e => norm_num [get_mid_price_result]
  | ok book =>
    have hb := h book rfl
    simp only [get_mid_price_result]
    by_cases hc : bookBids book = [] ∧ bookAsks book = []
    · simp only [get_mid_price, if_pos hc]; norm_num
    · simp only [get_mid_price, if_neg hc]
      have hbid : 0 ≤ (match pyListMax ((bookBids book).map (fun o => o.price)) with
          | none => (0 : ℚ) | some m => m) ∧
          (match pyListMax ((bookBids book).map (fun o => o.price)) with
          | none => (0 : ℚ) | some m => m) ≤ 1 := by
        cases hm : pyListMax ((bookBids book).map (fun o => o.price)) with
        | none => norm_num
        | some m =>
          obtain ⟨hmem, -⟩ := (pyListMax_eq_some_iff _ _).mp hm
          obtain ⟨o, ho, rfl⟩ := List.mem_map.mp hmem
          exact hb o (List.mem_of_mem_filter ho)
      have hask : 0 ≤ (match pyListMin ((bookAsks book).map (fun o => o.price)) with
          | none => (1 : ℚ) | some m => m) ∧
          (match pyListMin ((bookAsks book).map (fun o => o.price)) with
          | none => (1 : ℚ) | some m => m) ≤ 1 := by
        cases hm : pyListMin ((bookAsks book).map (fun o => o.price)) with
        | none => norm_num
        | some m =>
          obtain ⟨hmem, -⟩ := (pyListMin_eq_some_iff _ _).mp hm
          obtain ⟨o, ho, rfl⟩ := List.mem_map.mp hmem
          exact hb o (List.mem_of_mem_filter ho)
      constructor
      · have := hbid.1; have := hask.1; linarith
      · have := hbid.2; have := hask.2; linarith

theorem mid_price_range_witness :
    0 ≤ get_mid_price_result (Except.ok [⟨Side.buy, 1/2⟩, ⟨Side.sell, 7/10⟩]) ∧
    get_mid_price_result (Except.ok [⟨Side.buy, 1/2⟩, ⟨Side.sell, 7/10⟩]) ≤ 1 :=
  mid_price_range (Except.ok [⟨Side.buy, 1/2⟩, ⟨Side.sell, 7/10⟩])
    (by rintro book hb; cases hb; rintro o ho; fin_cases ho <;> norm_num)

/-! ## Order lifecycle manager: `place_limit_order`, `cancel_order` -/

/-- Result of one `place_limit_order` call: either the exchange response
dict, of which only the `orderID` key is ever read (missing = `none`), or
the structured failure dict `{'success': False, 'errorMsg': str(e)}` built
in the `except` branch. -/
inductive OrderResult where
  | resp (orderID : Option String)
  | failure (errorMsg : String)
deriving DecidableEq, Repr

/-- Response dict of `client.cancel`: the value of its `canceled` key as
read by `resp.get('canceled', [])` (an absent key is the empty list). -/
structure CancelResp where
  canceled : List String
deriving DecidableEq, Repr

/-- Result of one `cancel_order` call: the exchange response dict, or the
structured failure dict from the `except` branch. -/
inductive CancelResult where
  | resp (r : CancelResp)
  | failure (errorMsg : String)
deriving DecidableEq, Repr

/-- Python truthiness of `resp.get('orderID')`: the id when it is present
and nonempty, else `none`. -/
def truthyOid : Option String → Option String
  | none => none
  | some s => if s = "" then none else some s

/-- External inputs consumed by one `place_limit_order` call: the
minimum-size lookup, the combined `create_order`/`post_order` outcome
(read only for its `orderID`), and the wall clock for `datetime.now()`.

`self.get_market_min_size(market_id)` is called by the source but defined
nowhere in the repository; modelled from the spec: external client
contract `get_min_order_size(market) → size` (§6), a call that may fail
like any other external call. -/
structure PlaceExternal where
  min_size : Except String ℚ
  post : Except String (Option String)
  now : ℕ

/-- Price clamp `price = max(0.01, min(0.99, price))` in `place_limit_order`. -/
def clampedPrice (price : ℚ) : ℚ := max (1/100) (min (99/100) price)

/-- Size clamp `size = max(float(min_size), size)` in `place_limit_order`. -/
def clampedSize (min_size size : ℚ) : ℚ := max min_size size

/-- Operation `place_limit_order`: clamp price and size, submit through the client,
and on a truthy `orderID` append a `'live'` registry entry.  Every
external-call error is caught and returned as a failure result.  (The
`fee_rate_bps` argument is forwarded to the exchange and never stored; it
plays no role in any claim and is omitted.) -/
def place_limit_order (st : BotState) (market_id token_id : String)
    (side : Side) (size price : ℚ) (ext : PlaceExternal) :
    BotState × OrderResult :=
  let price := clampedPrice price
  match ext.min_size with
  | Except.error e => (st, OrderResult.failure e)
  | Except.ok min_size =>
    let size := clampedSize min_size size
    match ext.post with
    | Except.error e => (st, OrderResult.failure e)
    | Except.ok oid =>
      match truthyOid oid with
      | some s =>
        let order_info : Order :=
          { id := s, market_id := market_id, token_id := token_id,
            side := side, size := size, price := price,
            time := ext.now, status := OrderStatus.live }
        ({ st with orders := st.orders ++ [order_info] }, OrderResult.resp oid)
      | none => (st, OrderResult.resp oid)

/-- Operation `cancel_order`: submit the cancellation; for every registry entry whose
id equals the requested id, set its status to `'canceled'` when the
requested id appears in the response's `canceled` list.  Every
external-call error is caught and returned as a failure result. -/
def cancel_order (st : BotState) (order_id : String)
    (ext : Except String CancelResp) : BotState × CancelResult :=
  match ext with
  | Except.error e => (st, CancelResult.failure e)
  | Except.ok resp =>
    let orders := st.orders.map (fun o =>
      if o.id = order_id ∧ order_id ∈ resp.canceled then
        { o with status := OrderStatus.canceled }
      else o)
    ({ st with orders := orders }, CancelResult.resp resp)

/-- Claim C5: for every requested price and size (including negative and
greater-than-one values), the price `place_limit_order` submits lies in
`[0.01, 0.99]` and the submitted size is at least the exchange-reported
minimum; moreover any order the call adds to the registry carries exactly
those clamped values. -/
theorem place_clamps :
    (∀ price : ℚ, 1/100 ≤ clampedPrice price ∧ clampedPrice price ≤ 99/100) ∧
    (∀ min_size size : ℚ, min_size ≤ clampedSize min_size size) ∧
    (∀ st market_id token_id side size price ext o,
       o ∈ (place_limit_order st market_id token_id side size price ext).1.orders →
       o ∈ st.orders ∨
         (o.price = clampedPrice price ∧
          ∀ m, ext.min_size = Except.ok m → o.size = clampedSize m size)) := by
  refine ⟨?_, ?_, ?_⟩
  · intro price
    exact ⟨le_max_left _ _, max_le (by norm_num) (min_le_left _ _)⟩
  · intro min_size size
    exact le_max_left _ _
  · intro st market_id token_id side size price ext o hmem
    rcases ext with ⟨ms, post, now⟩
    cases ms with
    | error e => exact Or.inl hmem
    | ok m =>
      cases post with
      | error e => exact Or.inl hmem
      | ok oid =>
        cases hoid : truthyOid oid with
        | none =>
          simp only [place_limit_order, hoid] at hmem
          exact Or.inl hmem
        | some s =>
          simp only [place_limit_order, hoid, List.mem_append,
            List.mem_singleton] at hmem
          rcases hmem with hmem | rfl
          · exact Or.inl hmem
          · refine Or.inr ⟨rfl, ?_⟩
            rintro m2 hm2
            cases hm2
            rfl

/-- The registry entry appended in the `place_clamps` witness run. -/
def placeWitnessOrder : Order :=
  { id := "a", market_id := "m", token_id := "t", side := Side.buy,
    size := clampedSize 1 (-5), price := clampedPrice 7,
    time := 0, status := OrderStatus.live }

theorem place_clamps_witness :
    placeWitnessOrder ∈ initBot.orders ∨
      (placeWitnessOrder.price = clampedPrice 7 ∧
       ∀ m, (Except.ok 1 : Except String ℚ) = Except.ok m →
         placeWitnessOrder.size = clampedSize m (-5)) :=
  place_clamps.2.2 initBot "m" "t" Side.buy (-5) 7
    ⟨Except.ok 1, Except.ok (some "a"), 0⟩ placeWitnessOrder
    (by simp [place_limit_order, truthyOid, initBot, placeWitnessOrder])

/-- Claim C6: `place_limit_order` and `cancel_order` convert every
external-call error into a structured failure result carrying the error
message, never raising (the embedding is total), and an errored or
unacknowledged placement leaves the order registry unchanged. -/
theorem failure_policy :
    (∀ st market_id token_id side size price e post now,
       place_limit_order st market_id token_id side size price
         ⟨Except.error e, post, now⟩ = (st, OrderResult.failure e)) ∧
    (∀ st market_id token_id side size price ms e now,
       place_limit_order st market_id token_id side size price
         ⟨Except.ok ms, Except.error e, now⟩ = (st, OrderResult.failure e)) ∧
    (∀ st market_id token_id side size price ms oid now,
       truthyOid oid = none →
       place_limit_order st market_id token_id side size price
         ⟨Except.ok ms, Except.ok oid, now⟩ = (st, OrderResult.resp oid)) ∧
    (∀ st order_id e,
       cancel_order st order_id (Except.error e) = (st, CancelResult.failure e)) := by
  refine ⟨fun _ _ _ _ _ _ _ _ _ => rfl, fun _ _ _ _ _ _ _ _ _ => rfl, ?_,
    fun _ _ _ => rfl⟩
  intro st market_id token_id side size price ms oid now h
  simp only [place_limit_order, h]

theorem failure_policy_witness :
    place_limit_order initBot "m" "t" Side.buy 5 (1/2)
      ⟨Except.ok 1, Except.ok none, 0⟩ = (initBot, OrderResult.resp none) :=
  failure_policy.2.2.1 initBot "m" "t" Side.buy 5 (1/2) 1 none 0 rfl

/-- Claim C7: on a successful cancel call, the registry entry at each
position is set to `CANCELED` exactly when its id is the requested id and
that id appears in the response's canceled-set, and is left unchanged
otherwise; in particular when the id is absent from the canceled-set the
whole state is unchanged, and in every case no entry is added or removed. -/
theorem cancel_frame (st : BotState) (order_id : String) (r : CancelResp) :
    ((cancel_order st order_id (Except.ok r)).1.orders.length
        = st.orders.length) ∧
    (∀ i : ℕ,
      match st.orders[i]?, (cancel_order st order_id (Except.ok r)).1.orders[i]? with
      | some o, some o2 =>
          o2 = if o.id = order_id ∧ order_id ∈ r.canceled
               then { o with status := OrderStatus.canceled } else o
      | none, none => True
      | _, _ => False) ∧
    (order_id ∉ r.canceled → (cancel_order st order_id (Except.ok r)).1 = st) := by
  refine ⟨by simp [cancel_order], ?_, ?_⟩
  · intro i
    simp only [cancel_order, List.getElem?_map]
    cases st.orders[i]? with
    | none => simp
    | some o => simp
  · intro h
    simp [cancel_order, h]

/-- A one-order registry used to instantiate `cancel_frame`. -/
def frameSt : BotState :=
  { orders := [{ id := "x", market_id := "m", token_id := "t",
                 side := Side.buy, size := 1, price := 1/2,
                 time := 0, status := OrderStatus.live }],
    pnl_history := [] }

theorem cancel_frame_witness :
    (cancel_order frameSt "x" (Except.ok ⟨["y"]⟩)).1 = frameSt :=
  (cancel_frame frameSt "x" ⟨["y"]⟩).2.2 (by decide)

/-! ## PnL tracker: `get_pnl`, `get_rewards_total` -/

/-- The running accumulators of the fill loop in `get_pnl`
(`buy_volume`, `buy_cost`, `sell_volume`, `sell_revenue`). -/
structure PnlAcc where
  buy_volume : ℚ
  buy_cost : ℚ
  sell_volume : ℚ
  sell_revenue : ℚ
deriving DecidableEq, Repr

/-- One iteration of the fill loop: a CONFIRMED buy accumulates volume and
`size*price` cost, a CONFIRMED non-buy (sell) accumulates volume and
`size*(1-price)` revenue, every other trade is ignored. -/
def pnlStep (acc : PnlAcc) (t : Trade) : PnlAcc :=
  if t.status = "CONFIRMED" then
    if t.side = Side.buy then
      { acc with buy_volume := acc.buy_volume + t.size,
                 buy_cost := acc.buy_cost + t.size * t.price }
    else
      { acc with sell_volume := acc.sell_volume + t.size,
                 sell_revenue := acc.sell_revenue + t.size * (1 - t.price) }
  else acc

/-- Realized PnL `realized_pnl = sell_revenue - buy_cost` as computed by `get_pnl`. -/
def realizedPnl (trades : List Trade) : ℚ :=
  let acc := trades.foldl pnlStep ⟨0, 0, 0, 0⟩
  acc.sell_revenue - acc.buy_cost

/-- Placeholder `get_rewards_total`: the rewards source, constant `0`. -/
def get_rewards_total : ℚ := 0

/-- Operation `get_pnl`: fetch this account's trades, recompute realized PnL from
CONFIRMED fills, append a timestamped snapshot to `self.pnl_history` and
return the whole history; a failed retrieval returns `[]` and leaves the
state unchanged. -/
def get_pnl (st : BotState) (trades_resp : Except String (List Trade))
    (now : ℕ) : BotState × List PnlSnapshot :=
  match trades_resp with
  | Except.error _ => (st, [])
  | Except.ok trades =>
    let realized_pnl := realizedPnl trades
    let reward_earnings := get_rewards_total
    let total_pnl := realized_pnl + reward_earnings
    let snap : PnlSnapshot :=
      { timestamp := now, realized_pnl := realized_pnl,
        rewards := reward_earnings, total_pnl := total_pnl }
    let hist := st.pnl_history ++ [snap]
    ({ st with pnl_history := hist }, hist)

/-- Modelled from the spec (§4.4 wording, for the refinement claim C4):
realized PnL is the sum of `size*(1-price)` over CONFIRMED sell trades
minus the sum of `size*price` over CONFIRMED buy trades. -/
def specRealizedPnl (trades : List Trade) : ℚ :=
  ((trades.filter (fun t =>
      decide (t.status = "CONFIRMED" ∧ t.side = Side.sell))).map
    (fun t => t.size * (1 - t.price))).sum
  - ((trades.filter (fun t =>
      decide (t.status = "CONFIRMED" ∧ t.side = Side.buy))).map
    (fun t => t.size * t.price)).sum

theorem specRealizedPnl_nil : specRealizedPnl [] = 0 := by
  simp [specRealizedPnl]

theorem specRealizedPnl_cons (t : Trade) (ts : List Trade) :
    specRealizedPnl (t :: ts)
      = specRealizedPnl ts
        + (if t.status = "CONFIRMED" then
             if t.side = Side.buy then -(t.size * t.price)
             else t.size * (1 - t.price)
           else 0) := by
  by_cases hst : t.status = "CONFIRMED"
  · by_cases hsd : t.side = Side.buy
    · simp [specRealizedPnl, List.filter_cons, hst, hsd]
      ring
    · have hsell : t.side = Side.sell := by
        cases ht : t.side
        · exact absurd ht hsd
        · rfl
      simp [specRealizedPnl, List.filter_cons, hst, hsell]
      ring
  · simp [specRealizedPnl, List.filter_cons, hst]

theorem pnl_foldl_shift (trades : List Trade) (a : PnlAcc) :
    (trades.foldl pnlStep a).sell_revenue - (trades.foldl pnlStep a).buy_cost
      = (a.sell_revenue - a.buy_cost) + specRealizedPnl trades := by
  induction trades generalizing a with
  | nil => simp [specRealizedPnl]
  | cons t ts ih =>
    rw [List.foldl_cons, ih, specRealizedPnl_cons]
    unfold pnlStep
    by_cases hst : t.status = "CONFIRMED"
    · by_cases hsd : t.side = Side.buy
      · simp only [if_pos hst, if_pos hsd]
        ring
      · simp only [if_pos hst, if_neg hsd]
        ring
    · simp only [if_neg hst]
      ring

/-- Claim C4: `get_pnl` computes
`realized_pnl = Σ CONFIRMED sells size*(1-price) − Σ CONFIRMED buys
size*price`, ignoring non-CONFIRMED trades; in particular one CONFIRMED
buy of 10 at 0.40 and one CONFIRMED sell of 10 at 0.70 give `-1`. -/
theorem realized_pnl_spec :
    (∀ trades : List Trade, realizedPnl trades = specRealizedPnl trades) ∧
    realizedPnl [⟨Side.buy, 10, 2/5, "CONFIRMED"⟩,
                 ⟨Side.sell, 10, 7/10, "CONFIRMED"⟩] = -1 := by
  have main : ∀ trades, realizedPnl trades = specRealizedPnl trades := by
    intro trades
    have h := pnl_foldl_shift trades ⟨0, 0, 0, 0⟩
    simpa [realizedPnl] using h
  refine ⟨main, ?_⟩
  rw [main]
  rw [specRealizedPnl_cons, specRealizedPnl_cons, specRealizedPnl_nil]
  simp
  try norm_num

/-- Claim C8: a successful `get_pnl` call appends exactly one snapshot
(carrying the recomputed realized PnL and the rewards figure), a failed
one leaves the history unchanged and returns `[]`; the previous history is
always a prefix of the new one and its length never decreases; and two
successful calls over the same trade list append two snapshots with equal
`realized_pnl` and `rewards`. -/
theorem pnl_history_append_only :
    (∀ st trades now, ∃ snap,
       (get_pnl st (Except.ok trades) now).1.pnl_history
           = st.pnl_history ++ [snap] ∧
       snap.realized_pnl = realizedPnl trades ∧
       snap.rewards = get_rewards_total ∧
       snap.timestamp = now) ∧
    (∀ st e now,
       (get_pnl st (Except.error e) now).1.pnl_history = st.pnl_history ∧
       (get_pnl st (Except.error e) now).2 = []) ∧
    (∀ st resp now, ∃ tail,
       (get_pnl st resp now).1.pnl_history = st.pnl_history ++ tail ∧
       st.pnl_history.length ≤ (get_pnl st resp now).1.pnl_history.length) ∧
    (∀ st trades t1 t2, ∃ s1 s2,
       (get_pnl (get_pnl st (Except.ok trades) t1).1
           (Except.ok trades) t2).1.pnl_history
         = st.pnl_history ++ [s1, s2] ∧
       s1.realized_pnl = s2.realized_pnl ∧ s1.rewards = s2.rewards ∧
       s1.timestamp = t1 ∧ s2.timestamp = t2) := by
  refine ⟨?_, ?_, ?_, ?_⟩
  · intro st trades now
    exact ⟨_, rfl, rfl, rfl, rfl⟩
  · intro st e now
    exact ⟨rfl, rfl⟩
  · intro st resp now
    cases resp with
    | error e => exact ⟨[], by simp [get_pnl]⟩
    | ok trades =>
      refine ⟨[⟨now, realizedPnl trades, get_rewards_total,
        realizedPnl trades + get_rewards_total⟩], rfl, ?_⟩
      simp [get_pnl]
  · intro st trades t1 t2
    refine ⟨⟨t1, realizedPnl trades, get_rewards_total,
        realizedPnl trades + get_rewards_total⟩,
      ⟨t2, realizedPnl trades, get_rewards_total,
        realizedPnl trades + get_rewards_total⟩, ?_, rfl, rfl, rfl, rfl⟩
    simp [get_pnl]

/-! ## Strategy loop: `run_strategy` -/

/-- Python `round(x, 2)`: rounding to the nearest hundredth with ties to even, as
Python's `round` does.  (Python rounds binary floats; the representation
error is immaterial here: no claim proved below depends on the rounded
value, which only flows into quoted prices.) -/
def roundHalfEven (q : ℚ) : ℤ :=
  let f := ⌊q⌋
  let r := q - f
  if r < 1/2 then f
  else if 1/2 < r then f + 1
  else if Even f then f else f + 1

/-- Rounding `round(x, 2)` of the quote-price computation. -/
def round2 (q : ℚ) : ℚ := (roundHalfEven (q * 100) : ℚ) / 100

/-- The external events consumed by one iteration of the `while` loop of
`run_strategy`: the fetched book behind the mid-price, the two cancel
responses (functions of the cancelled id: the exchange answers about the
id it was asked to cancel), and the two placement call contexts. -/
structure CycleEvents where
  book : Except String (List BookOrder)
  cancelBuy : String → Except String CancelResp
  cancelSell : String → Except String CancelResp
  placeBuy : PlaceExternal
  placeSell : PlaceExternal

/-- The id the loop reads off a placement result via
`resp.get('orderID')` truthiness. -/
def respOrderId : OrderResult → Option String
  | OrderResult.resp oid => truthyOid oid
  | OrderResult.failure _ => none

/-- The quote the loop starts tracking after a placement:
`next((o for o in self.orders if o['id'] == resp['orderID']), None)` when
the placement acknowledged an id, `None` otherwise. -/
def trackQuote (p : BotState × OrderResult) : Option Order :=
  match respOrderId p.2 with
  | some oid => p.1.orders.find? (fun o => o.id == oid)
  | none => none

/-- Cancel step `if active_order: self.cancel_order(active_order['id'])`: cancel the
tracked quote of one side, if any, and keep only the resulting state (the
loop drops its local reference regardless of the outcome). -/
def cancelActive (st : BotState) (act : Option Order)
    (f : String → Except String CancelResp) : BotState :=
  match act with
  | some o => (cancel_order st o.id (f o.id)).1
  | none => st

/-- One iteration of the `while` loop body of `run_strategy`.  In the
embedding no step raises, so the `except`-and-sleep-5 branch is
unreachable; `if mid_price:` is Python truthiness, skipping the whole
quoting block when the mid price is zero.  Quote prices are computed from
the mid price, the resting quotes (if any) are cancelled and their local
references dropped regardless of the cancel outcome, then one buy and one
sell order are placed, each becoming the tracked active quote only when
its placement acknowledged an order id. -/
def strategyCycle (market_id token_id : String) (max_spread size : ℚ)
    (st : BotState) (actB actS : Option Order) (ev : CycleEvents) :
    BotState × Option Order × Option Order :=
  let mid_price := get_mid_price_result ev.book
  if mid_price = 0 then (st, actB, actS)
  else
    let buy_price := max (1/100) (round2 (mid_price - max_spread))
    let sell_price := min (99/100) (round2 (mid_price + max_spread))
    let st1 := cancelActive st actB ev.cancelBuy
    let st2 := cancelActive st1 actS ev.cancelSell
    let pb := place_limit_order st2 market_id token_id Side.buy size
      buy_price ev.placeBuy
    let actB2 := trackQuote pb
    let ps := place_limit_order pb.1 market_id token_id Side.sell size
      sell_price ev.placeSell
    let actS2 := trackQuote ps
    (ps.1, actB2, actS2)

/-- The `while time.time() < end_time` loop: the wall clock allows as many
iterations as there are scheduled per-cycle events. -/
def runCycles (market_id token_id : String) (max_spread size : ℚ) :
    BotState → Option Order → Option Order → List CycleEvents →
    BotState × Option Order × Option Order
  | st, actB, actS, [] => (st, actB, actS)
  | st, actB, actS, ev :: evs =>
    let r := strategyCycle market_id token_id max_spread size st actB actS ev
    runCycles market_id token_id max_spread size r.1 r.2.1 r.2.2 evs

/-- Operation `run_strategy`: fix `size = risk_amount / 2`, run the scheduled cycles
from no active quotes, then cancel whichever quotes are still active. -/
def run_strategy (market_id token_id : String) (risk_amount max_spread : ℚ)
    (st : BotState) (evs : List CycleEvents)
    (finalCancelBuy finalCancelSell : String → Except String CancelResp) :
    BotState :=
  let size := risk_amount / 2
  let r := runCycles market_id token_id max_spread size st none none evs
  let st1 := cancelActive r.1 r.2.1 finalCancelBuy
  cancelActive st1 r.2.2 finalCancelSell

/-! ## Loop invariant machinery -/

/-- The ids of the live registry entries of one side, in registry order. -/
def liveIdsL (sd : Side) (l : List Order) : List String :=
  (l.filter (fun o =>
    decide (o.status = OrderStatus.live ∧ o.side = sd))).map (fun o => o.id)

/-- The ids of the live registry entries of one side of a bot state. -/
def liveIds (sd : Side) (st : BotState) : List String :=
  liveIdsL sd st.orders

/-- The ids of all registry entries. -/
def regIds (st : BotState) : List String := st.orders.map (fun o => o.id)

/-- The id list of an optional tracked quote. -/
def actIds : Option Order → List String
  | none => []
  | some o => [o.id]

/-- Inductive invariant of the strategy loop: registry ids are pairwise
distinct, and the live ids of each side are exactly the tracked active
quote of that side. -/
def LoopInv (st : BotState) (actB actS : Option Order) : Prop :=
  (regIds st).Nodup ∧
  liveIds Side.buy st = actIds actB ∧
  liveIds Side.sell st = actIds actS

/-- A cancel oracle that confirms every id it is asked to cancel. -/
def Obedient (f : String → Except String CancelResp) : Prop :=
  ∀ s, ∃ r, f s = Except.ok r ∧ s ∈ r.canceled

/-- Both cancel oracles of a cycle confirm what they are asked. -/
def ObedientEv (ev : CycleEvents) : Prop :=
  Obedient ev.cancelBuy ∧ Obedient ev.cancelSell

/-- The order id a placement context will append, if any; determined by
the oracle's shape alone. -/
def placedId (pe : PlaceExternal) : List String :=
  match pe.min_size, pe.post with
  | Except.ok _, Except.ok oid =>
    match truthyOid oid with
    | some s => [s]
    | none => []
  | _, _ => []

/-- The ids appended during one cycle. -/
def evPlacedIds (ev : CycleEvents) : List String :=
  if get_mid_price_result ev.book = 0 then []
  else placedId ev.placeBuy ++ placedId ev.placeSell

/-- The ids appended during a whole schedule. -/
def allPlacedIds : List CycleEvents → List String
  | [] => []
  | ev :: evs => evPlacedIds ev ++ allPlacedIds evs

theorem allPlacedIds_append (l1 l2 : List CycleEvents) :
    allPlacedIds (l1 ++ l2) = allPlacedIds l1 ++ allPlacedIds l2 := by
  induction l1 with
  | nil => rfl
  | cons ev evs ih => simp [allPlacedIds, ih]

theorem actIds_length_le (a : Option Order) : (actIds a).length ≤ 1 := by
  cases a <;> simp [actIds]

theorem liveIdsL_cons (sd : Side) (o : Order) (l : List Order) :
    liveIdsL sd (o :: l)
      = if o.status = OrderStatus.live ∧ o.side = sd
        then o.id :: liveIdsL sd l else liveIdsL sd l := by
  by_cases h : o.status = OrderStatus.live ∧ o.side = sd
  · simp [liveIdsL, List.filter_cons, h]
  · simp [liveIdsL, List.filter_cons, h]

theorem liveIdsL_append (sd : Side) (l1 l2 : List Order) :
    liveIdsL sd (l1 ++ l2) = liveIdsL sd l1 ++ liveIdsL sd l2 := by
  simp [liveIdsL, List.filter_append]

theorem mem_liveIdsL (sd : Side) (l : List Order) (s : String) :
    s ∈ liveIdsL sd l
      ↔ ∃ o, o ∈ l ∧ o.status = OrderStatus.live ∧ o.side = sd ∧ o.id = s := by
  simp only [liveIdsL, List.mem_map, List.mem_filter, decide_eq_true_eq]
  constructor
  · rintro ⟨o, ⟨ho, h1, h2⟩, rfl⟩
    exact ⟨o, ho, h1, h2, rfl⟩
  · rintro ⟨o, ho, h1, h2, rfl⟩
    exact ⟨o, ⟨ho, h1, h2⟩, rfl⟩

/-! ## Effect lemmas for `cancel_order` and `place_limit_order` -/

theorem cancel_error_state (st : BotState) (oid e : String) :
    (cancel_order st oid (Except.error e)).1 = st := rfl

theorem cancel_unconfirmed (st : BotState) (oid : String) (r : CancelResp)
    (h : oid ∉ r.canceled) :
    (cancel_order st oid (Except.ok r)).1 = st := by
  simp [cancel_order, h]

theorem cancel_map_ids (oid : String) (r : CancelResp) (l : List Order) :
    (l.map (fun o =>
        if o.id = oid ∧ oid ∈ r.canceled
        then { o with status := OrderStatus.canceled } else o)).map
      (fun o => o.id) = l.map (fun o => o.id) := by
  induction l with
  | nil => rfl
  | cons o l ih =>
    simp only [List.map_cons, ih]
    by_cases h : o.id = oid ∧ oid ∈ r.canceled
    · simp [h]
    · simp [h]

theorem cancel_regIds (st : BotState) (oid : String) (r : CancelResp) :
    regIds (cancel_order st oid (Except.ok r)).1 = regIds st := by
  simp only [cancel_order, regIds]
  exact cancel_map_ids oid r st.orders

theorem liveIdsL_cancel_map (sd : Side) (oid : String) (r : CancelResp)
    (hr : oid ∈ r.canceled) (l : List Order) :
    liveIdsL sd (l.map (fun o =>
        if o.id = oid ∧ oid ∈ r.canceled
        then { o with status := OrderStatus.canceled } else o))
      = (liveIdsL sd l).filter (fun s => decide (s ≠ oid)) := by
  induction l with
  | nil => rfl
  | cons o l ih =>
    simp only [List.map_cons]
    by_cases hid : o.id = oid
    · rw [if_pos ⟨hid, hr⟩, liveIdsL_cons, liveIdsL_cons]
      have hc : ¬ (({ o with status := OrderStatus.canceled } : Order).status
            = OrderStatus.live ∧
          ({ o with status := OrderStatus.canceled } : Order).side = sd) := by
        intro hcc
        exact absurd hcc.1 (by simp)
      rw [if_neg hc, ih]
      by_cases hlv : o.status = OrderStatus.live ∧ o.side = sd
      · rw [if_pos hlv, List.filter_cons]
        have hdec : decide (o.id ≠ oid) = false := by simp [hid]
        rw [hdec]
        simp
      · rw [if_neg hlv]
    · rw [if_neg (fun hc => hid hc.1), liveIdsL_cons, liveIdsL_cons, ih]
      by_cases hlv : o.status = OrderStatus.live ∧ o.side = sd
      · rw [if_pos hlv, if_pos hlv, List.filter_cons]
        have hdec : decide (o.id ≠ oid) = true := by simp [hid]
        rw [hdec]
        simp
      · rw [if_neg hlv, if_neg hlv]

theorem liveIds_cancel_confirmed (st : BotState) (oid : String)
    (r : CancelResp) (hr : oid ∈ r.canceled) (sd : Side) :
    liveIds sd (cancel_order st oid (Except.ok r)).1
      = (liveIds sd st).filter (fun s => decide (s ≠ oid)) := by
  simp only [liveIds, cancel_order]
  exact liveIdsL_cancel_map sd oid r hr st.orders

theorem filter_ne_singleton_self (a : String) :
    [a].filter (fun s => decide (s ≠ a)) = [] := by simp

theorem filter_ne_of_not_mem (l : List String) (a : String) (h : a ∉ l) :
    l.filter (fun s => decide (s ≠ a)) = l := by
  induction l with
  | nil => rfl
  | cons x l ih =>
    simp only [List.mem_cons, not_or] at h
    have hx : decide (x ≠ a) = true := decide_eq_true (fun he => h.1 he.symm)
    rw [List.filter_cons, hx, if_pos rfl, ih h.2]

theorem liveIds_disjoint (st : BotState) (hNodup : (regIds st).Nodup)
    {sd1 sd2 : Side} (hne : sd1 ≠ sd2) {s : String}
    (h1 : s ∈ liveIds sd1 st) : s ∉ liveIds sd2 st := by
  intro h2
  obtain ⟨o1, ho1, hl1, hs1, hid1⟩ := (mem_liveIdsL sd1 st.orders s).mp h1
  obtain ⟨o2, ho2, hl2, hs2, hid2⟩ := (mem_liveIdsL sd2 st.orders s).mp h2
  have heq : o1 = o2 :=
    List.inj_on_of_nodup_map hNodup ho1 ho2 (by rw [hid1, hid2])
  exact hne (by rw [← hs1, heq, hs2])

/-- Cancelling the tracked quote of one side (as the loop does, with a
confirming oracle) empties the live ids of that side, preserves the ids of
the registry, and leaves the other side's live ids unchanged. -/
theorem cancel_active_effects (st : BotState) (act : Option Order) (sd : Side)
    (f : String → Except String CancelResp) (hOb : Obedient f)
    (hNodup : (regIds st).Nodup) (hlive : liveIds sd st = actIds act) :
    regIds (cancelActive st act f) = regIds st ∧
    liveIds sd (cancelActive st act f) = [] ∧
    ∀ sd2, sd2 ≠ sd →
      liveIds sd2 (cancelActive st act f) = liveIds sd2 st := by
  cases act with
  | none =>
    refine ⟨rfl, ?_, fun _ _ => rfl⟩
    exact hlive
  | some a =>
    obtain ⟨r, hf, hmem⟩ := hOb a.id
    simp only [cancelActive, hf]
    refine ⟨cancel_regIds st a.id r, ?_, ?_⟩
    · rw [liveIds_cancel_confirmed st a.id r hmem sd, hlive]
      exact filter_ne_singleton_self a.id
    · intro sd2 hsd2
      rw [liveIds_cancel_confirmed st a.id r hmem sd2]
      apply filter_ne_of_not_mem
      have hin : a.id ∈ liveIds sd st := by
        rw [hlive]
        simp [actIds]
      exact liveIds_disjoint st hNodup (fun h => hsd2 h.symm) hin

theorem place_no_id (st : BotState) (market_id token_id : String) (sd : Side)
    (size price : ℚ) (pe : PlaceExternal) (h : placedId pe = []) :
    (place_limit_order st market_id token_id sd size price pe).1 = st ∧
    trackQuote (place_limit_order st market_id token_id sd size price pe)
      = none := by
  rcases pe with ⟨ms, post, now⟩
  cases ms with
  | error e => exact ⟨rfl, rfl⟩
  | ok m =>
    cases post with
    | error e => exact ⟨rfl, rfl⟩
    | ok oid =>
      cases hoid : truthyOid oid with
      | some s => exact absurd h (by simp [placedId, hoid])
      | none =>
        constructor
        · simp [place_limit_order, hoid]
        · simp [trackQuote, place_limit_order, hoid, respOrderId]

/-- The registry entry a successful placement appends. -/
def placedOrder (market_id token_id : String) (sd : Side)
    (size price m : ℚ) (now : ℕ) (s : String) : Order :=
  { id := s, market_id := market_id, token_id := token_id, side := sd,
    size := clampedSize m size, price := clampedPrice price,
    time := now, status := OrderStatus.live }

theorem place_with_id (st : BotState) (market_id token_id : String)
    (sd : Side) (size price m : ℚ) (oid : Option String) (now : ℕ)
    (s : String) (hoid : truthyOid oid = some s) :
    (place_limit_order st market_id token_id sd size price
        ⟨Except.ok m, Except.ok oid, now⟩).1.orders
      = st.orders ++ [placedOrder market_id token_id sd size price m now s] ∧
    respOrderId (place_limit_order st market_id token_id sd size price
        ⟨Except.ok m, Except.ok oid, now⟩).2 = some s := by
  constructor
  · simp [place_limit_order, hoid, placedOrder]
  · simp [place_limit_order, hoid, respOrderId]

theorem nodup_append_singleton (l : List String) (s : String)
    (h : l.Nodup) (hs : s ∉ l) : (l ++ [s]).Nodup := by
  rw [List.nodup_append]
  refine ⟨h, List.nodup_singleton s, ?_⟩
  intro x hx hxs
  rw [List.mem_singleton] at hxs
  subst hxs
  exact hs hx

theorem find?_cons_false (a : Order) (l : List Order) (s : String)
    (h : (a.id == s) = false) :
    (a :: l).find? (fun o2 => o2.id == s) = l.find? (fun o2 => o2.id == s) := by
  simp [List.find?, h]

theorem find?_append_singleton (l : List Order) (o : Order) (s : String)
    (hfresh : ∀ o2 ∈ l, o2.id ≠ s) (ho : o.id = s) :
    (l ++ [o]).find? (fun o2 => o2.id == s) = some o := by
  induction l with
  | nil => simp [List.find?, ho]
  | cons a l ih =>
    rw [List.cons_append,
      find?_cons_false a (l ++ [o]) s
        (by simp [hfresh a (List.mem_cons_self a l)])]
    exact ih (fun o2 h2 => hfresh o2 (List.mem_cons_of_mem a h2))

/-- Placing one order on a side with no live quote (as the loop does after
its cancels) appends exactly the oracle-determined id, keeps the registry
ids distinct when the new id is fresh, makes the live ids of that side
exactly the tracked quote, and leaves the other side's live ids alone. -/
theorem place_track (market_id token_id : String) (sd : Side)
    (size price : ℚ) (st : BotState) (pe : PlaceExternal)
    (hNodup : (regIds st).Nodup)
    (hFresh : ∀ s ∈ placedId pe, s ∉ regIds st)
    (hsdLive : liveIds sd st = []) :
    regIds (place_limit_order st market_id token_id sd size price pe).1
        = regIds st ++ placedId pe ∧
    (regIds (place_limit_order st market_id token_id sd size price pe).1).Nodup ∧
    liveIds sd (place_limit_order st market_id token_id sd size price pe).1
        = actIds (trackQuote
            (place_limit_order st market_id token_id sd size price pe)) ∧
    ∀ sd2, sd2 ≠ sd →
      liveIds sd2 (place_limit_order st market_id token_id sd size price pe).1
        = liveIds sd2 st := by
  by_cases hid : placedId pe = []
  · obtain ⟨h1, h2⟩ := place_no_id st market_id token_id sd size price pe hid
    rw [h1, h2, hid]
    exact ⟨by simp, hNodup, by simp [actIds, hsdLive], fun _ _ => rfl⟩
  · rcases pe with ⟨ms, post, now⟩
    cases ms with
    | error e => exact absurd rfl hid
    | ok m =>
      cases post with
      | error e => exact absurd rfl hid
      | ok oid =>
        cases hoid : truthyOid oid with
        | none => exact absurd (by simp [placedId, hoid]) hid
        | some s =>
          have hpl : placedId ⟨Except.ok m, Except.ok oid, now⟩ = [s] := by
            simp [placedId, hoid]
          obtain ⟨horders, hresp⟩ :=
            place_with_id st market_id token_id sd size price m oid now s hoid
          have hs : s ∉ regIds st := hFresh s (by rw [hpl]; simp)
          refine ⟨?_, ?_, ?_, ?_⟩
          · rw [hpl]
            simp only [regIds, horders, List.map_append, List.map_cons,
              List.map_nil, placedOrder]
          · have hreg : regIds (place_limit_order st market_id token_id sd
                size price ⟨Except.ok m, Except.ok oid, now⟩).1
                = regIds st ++ [s] := by
              simp only [regIds, horders, List.map_append, List.map_cons,
                List.map_nil, placedOrder]
            rw [hreg]
            exact nodup_append_singleton (regIds st) s hNodup hs
          · have hfind : (place_limit_order st market_id token_id sd size
                price ⟨Except.ok m, Except.ok oid, now⟩).1.orders.find?
                  (fun o => o.id == s)
                = some (placedOrder market_id token_id sd size price m now s) := by
              rw [horders]
              exact find?_append_singleton st.orders _ s
                (fun o2 h2 hsid => hs (by
                  rw [← hsid]
                  exact List.mem_map_of_mem (fun o => o.id) h2)) rfl
            have htrack : trackQuote (place_limit_order st market_id token_id
                sd size price ⟨Except.ok m, Except.ok oid, now⟩)
                = some (placedOrder market_id token_id sd size price m now s) := by
              simp only [trackQuote, hresp]
              exact hfind
            rw [htrack]
            simp only [liveIds, horders, liveIdsL_append, actIds]
            rw [show liveIdsL sd st.orders = [] from hsdLive]
            rw [liveIdsL_cons]
            simp [placedOrder, liveIdsL]
          · intro sd2 hsd2
            simp only [liveIds, horders, liveIdsL_append]
            rw [liveIdsL_cons]
            rw [if_neg (fun hcc => hsd2 (by
              have h2 := hcc.2
              simp only [placedOrder] at h2
              exact h2.symm))]
            simp [liveIdsL]

/-- One loop iteration preserves the loop invariant and appends exactly
the oracle-determined ids, provided the cancel oracles confirm what they
are asked and the acknowledged order ids are fresh. -/
theorem strategyCycle_track (market_id token_id : String)
    (max_spread size : ℚ) (st : BotState) (actB actS : Option Order)
    (ev : CycleEvents) (hInv : LoopInv st actB actS) (hObed : ObedientEv ev)
    (hFresh : ∀ s ∈ evPlacedIds ev, s ∉ regIds st)
    (hNodupEv : (evPlacedIds ev).Nodup) :
    LoopInv (strategyCycle market_id token_id max_spread size st actB actS ev).1
        (strategyCycle market_id token_id max_spread size st actB actS ev).2.1
        (strategyCycle market_id token_id max_spread size st actB actS ev).2.2 ∧
    regIds (strategyCycle market_id token_id max_spread size st actB actS ev).1
        = regIds st ++ evPlacedIds ev := by
  by_cases hm : get_mid_price_result ev.book = 0
  · have hev : evPlacedIds ev = [] := by simp [evPlacedIds, hm]
    rw [hev, List.append_nil]
    simp only [strategyCycle, if_pos hm]
    exact ⟨hInv, trivial⟩
  · have hev : evPlacedIds ev
        = placedId ev.placeBuy ++ placedId ev.placeSell := by
      simp [evPlacedIds, hm]
    obtain ⟨hInvN, hInvB, hInvS⟩ := hInv
    simp only [strategyCycle, if_neg hm]
    set st1 := cancelActive st actB ev.cancelBuy with hst1
    set st2 := cancelActive st1 actS ev.cancelSell with hst2
    set pb := place_limit_order st2 market_id token_id Side.buy size
      (max (1/100) (round2 (get_mid_price_result ev.book - max_spread)))
      ev.placeBuy with hpb
    set ps := place_limit_order pb.1 market_id token_id Side.sell size
      (min (99/100) (round2 (get_mid_price_result ev.book + max_spread)))
      ev.placeSell with hps
    obtain ⟨hr1, hb1, ho1⟩ :=
      cancel_active_effects st actB Side.buy ev.cancelBuy hObed.1 hInvN hInvB
    rw [← hst1] at hr1 hb1 ho1
    have hNodup1 : (regIds st1).Nodup := by rw [hr1]; exact hInvN
    have hlive1S : liveIds Side.sell st1 = actIds actS := by
      rw [ho1 Side.sell (by decide)]
      exact hInvS
    obtain ⟨hr2, hs2, ho2⟩ :=
      cancel_active_effects st1 actS Side.sell ev.cancelSell hObed.2
        hNodup1 hlive1S
    rw [← hst2] at hr2 hs2 ho2
    have hNodup2 : (regIds st2).Nodup := by rw [hr2]; exact hNodup1
    have hb2 : liveIds Side.buy st2 = [] := by
      rw [ho2 Side.buy (by decide)]
      exact hb1
    have hFreshB : ∀ s ∈ placedId ev.placeBuy, s ∉ regIds st2 := by
      intro s hsB
      rw [hr2, hr1]
      exact hFresh s (by rw [hev]; exact List.mem_append_left _ hsB)
    obtain ⟨hrB, hNodupB, hliveB, hoB⟩ :=
      place_track market_id token_id Side.buy size
        (max (1/100) (round2 (get_mid_price_result ev.book - max_spread)))
        st2 ev.placeBuy hNodup2 hFreshB hb2
    rw [← hpb] at hrB hNodupB hliveB hoB
    have hs2' : liveIds Side.sell pb.1 = [] := by
      rw [hoB Side.sell (by decide)]
      exact hs2
    have hFreshS : ∀ s ∈ placedId ev.placeSell, s ∉ regIds pb.1 := by
      intro s hsS
      rw [hrB, hr2, hr1]
      intro hsmem
      rcases List.mem_append.mp hsmem with hsreg | hsbuy
      · exact hFresh s (by rw [hev]; exact List.mem_append_right _ hsS) hsreg
      · have hdisj : List.Disjoint (placedId ev.placeBuy)
            (placedId ev.placeSell) :=
          List.disjoint_of_nodup_append (by rw [← hev]; exact hNodupEv)
        exact hdisj hsbuy hsS
    obtain ⟨hrS, hNodupS, hliveS, hoS⟩ :=
      place_track market_id token_id Side.sell size
        (min (99/100) (round2 (get_mid_price_result ev.book + max_spread)))
        pb.1 ev.placeSell hNodupB hFreshS hs2'
    rw [← hps] at hrS hNodupS hliveS hoS
    refine ⟨⟨hNodupS, ?_, hliveS⟩, ?_⟩
    · rw [hoS Side.buy (by decide)]
      exact hliveB
    · rw [hrS, hrB, hr2, hr1, hev, List.append_assoc]

/-- Running any schedule of cycles preserves the loop invariant and
appends exactly the oracle-determined ids. -/
theorem runCycles_track (market_id token_id : String) (max_spread size : ℚ)
    (evs : List CycleEvents) :
    ∀ (st : BotState) (actB actS : Option Order),
      LoopInv st actB actS →
      (∀ ev ∈ evs, ObedientEv ev) →
      (regIds st ++ allPlacedIds evs).Nodup →
      LoopInv (runCycles market_id token_id max_spread size st actB actS evs).1
          (runCycles market_id token_id max_spread size st actB actS evs).2.1
          (runCycles market_id token_id max_spread size st actB actS evs).2.2 ∧
      regIds (runCycles market_id token_id max_spread size st actB actS evs).1
          = regIds st ++ allPlacedIds evs := by
  induction evs with
  | nil =>
    intro st actB actS hInv _ _
    exact ⟨hInv, by simp [runCycles, allPlacedIds]⟩
  | cons ev evs ih =>
    intro st actB actS hInv hObed hNodup
    simp only [allPlacedIds] at hNodup
    have hNodupEv : (evPlacedIds ev).Nodup :=
      List.Nodup.of_append_left (List.Nodup.of_append_right hNodup)
    have hFresh : ∀ s ∈ evPlacedIds ev, s ∉ regIds st := by
      intro s hsev hsreg
      exact List.disjoint_of_nodup_append hNodup hsreg
        (List.mem_append_left _ hsev)
    obtain ⟨hInv2, hreg2⟩ :=
      strategyCycle_track market_id token_id max_spread size st actB actS ev
        hInv (hObed ev (List.mem_cons_self ev evs)) hFresh hNodupEv
    have hNodup2 : (regIds (strategyCycle market_id token_id max_spread size
        st actB actS ev).1 ++ allPlacedIds evs).Nodup := by
      rw [hreg2, List.append_assoc]
      exact hNodup
    obtain ⟨hInv3, hreg3⟩ :=
      ih (strategyCycle market_id token_id max_spread size st actB actS ev).1
        (strategyCycle market_id token_id max_spread size st actB actS ev).2.1
        (strategyCycle market_id token_id max_spread size st actB actS ev).2.2
        hInv2 (fun e he => hObed e (List.mem_cons_of_mem ev he)) hNodup2
    refine ⟨?_, ?_⟩
    · simpa [runCycles] using hInv3
    · rw [show (runCycles market_id token_id max_spread size st actB actS
          (ev :: evs)).1
        = (runCycles market_id token_id max_spread size
            (strategyCycle market_id token_id max_spread size st actB actS ev).1
            (strategyCycle market_id token_id max_spread size st actB actS ev).2.1
            (strategyCycle market_id token_id max_spread size st actB actS ev).2.2
            evs).1 from rfl]
      rw [hreg3, hreg2, List.append_assoc]
      simp [allPlacedIds]

/-! ## Per-side invariant without id-freshness

The purely-local per-side invariant: the live ids of a side are empty or
exactly the tracked quote's id.  Because `cancel_order` marks every
registry entry whose id matches the requested id, confirming cancel
responses alone keep this invariant — no assumption about distinctness of
exchange-acknowledged ids is needed. -/

/-- A side's live registry entries are empty, or all carry the tracked
quote's id (and then there is exactly one of them). -/
def SideInv (sd : Side) (st : BotState) (act : Option Order) : Prop :=
  liveIds sd st = [] ∨ ∃ a, act = some a ∧ liveIds sd st = [a.id]

theorem SideInv_length_le (sd : Side) (st : BotState) (act : Option Order)
    (h : SideInv sd st act) : (liveIds sd st).length ≤ 1 := by
  rcases h with h | ⟨a, _, h⟩
  · simp [h]
  · simp [h]

/-- Any cancel call either leaves a side's live ids unchanged or removes
exactly the requested id from them (never adds). -/
theorem liveIds_cancel_cases (st : BotState) (oid : String)
    (ext : Except String CancelResp) (sd : Side) :
    liveIds sd (cancel_order st oid ext).1 = liveIds sd st ∨
    liveIds sd (cancel_order st oid ext).1
      = (liveIds sd st).filter (fun s => decide (s ≠ oid)) := by
  cases ext with
  | error e => exact Or.inl rfl
  | ok r =>
    by_cases h : oid ∈ r.canceled
    · exact Or.inr (liveIds_cancel_confirmed st oid r h sd)
    · rw [cancel_unconfirmed st oid r h]
      exact Or.inl rfl

theorem filter_ne_singleton (x a : String) :
    [x].filter (fun s => decide (s ≠ a)) = [] ∨
    [x].filter (fun s => decide (s ≠ a)) = [x] := by
  by_cases h : x = a
  · subst h
    exact Or.inl (filter_ne_singleton_self x)
  · right
    have hx : decide (x ≠ a) = true := decide_eq_true h
    rw [List.filter_cons, hx, if_pos rfl]
    rfl

/-- A side with no live entries still has none after any cancel step. -/
theorem cancelActive_empty (st : BotState) (act : Option Order)
    (f : String → Except String CancelResp) (sd : Side)
    (h : liveIds sd st = []) :
    liveIds sd (cancelActive st act f) = [] := by
  cases act with
  | none => exact h
  | some a =>
    show liveIds sd (cancel_order st a.id (f a.id)).1 = []
    rcases liveIds_cancel_cases st a.id (f a.id) sd with hc | hc
    · rw [hc]
      exact h
    · rw [hc, h]
      rfl

/-- Cancelling a side's tracked quote through a confirming oracle empties
that side's live ids: every registry entry carrying the tracked id is
marked canceled, however many there are. -/
theorem cancelActive_own (st : BotState) (act : Option Order)
    (f : String → Except String CancelResp) (sd : Side) (hOb : Obedient f)
    (hInv : SideInv sd st act) :
    liveIds sd (cancelActive st act f) = [] := by
  cases act with
  | none =>
    rcases hInv with h | ⟨a, ha, _⟩
    · exact h
    · exact Option.noConfusion ha
  | some a =>
    obtain ⟨r, hf, hmem⟩ := hOb a.id
    show liveIds sd (cancel_order st a.id (f a.id)).1 = []
    rw [hf, liveIds_cancel_confirmed st a.id r hmem sd]
    rcases hInv with h | ⟨a2, ha2, h⟩
    · rw [h]
      rfl
    · injection ha2 with hh
      subst hh
      rw [h]
      exact filter_ne_singleton_self a.id

/-- A cancel step aimed at one side preserves the other side's invariant:
it can only remove live entries, never add one. -/
theorem cancelActive_other (st : BotState) (act act2 : Option Order)
    (f : String → Except String CancelResp) (sd : Side)
    (hInv : SideInv sd st act2) :
    SideInv sd (cancelActive st act f) act2 := by
  cases act with
  | none => exact hInv
  | some a =>
    show SideInv sd (cancel_order st a.id (f a.id)).1 act2
    rcases liveIds_cancel_cases st a.id (f a.id) sd with hc | hc
    · unfold SideInv
      rw [hc]
      exact hInv
    · unfold SideInv
      rw [hc]
      rcases hInv with h | ⟨b, hb, h⟩
      · rw [h]
        exact Or.inl rfl
      · rw [h]
        rcases filter_ne_singleton b.id a.id with h2 | h2
        · exact Or.inl h2
        · exact Or.inr ⟨b, hb, h2⟩

/-- The registry always holds some entry with the acknowledged id after a
successful placement, so `find?` returns an order carrying that id. -/
theorem find?_id_exists (l : List Order) (s : String) (o : Order)
    (ho : o ∈ l) (hid : o.id = s) :
    ∃ o2, l.find? (fun o2 => o2.id == s) = some o2 ∧ o2.id = s := by
  induction l with
  | nil => cases ho
  | cons a l ih =>
    by_cases ha : a.id = s
    · refine ⟨a, ?_, ha⟩
      have hb : (a.id == s) = true := by simp [ha]
      simp [List.find?, hb]
    · have hfa : (a.id == s) = false := by simp [ha]
      rw [find?_cons_false a l s hfa]
      rcases List.mem_cons.mp ho with rfl | ho2
      · exact absurd hid ha
      · exact ih ho2

/-- Placing on a side with no live quote establishes that side's
invariant for the newly tracked quote and leaves the other side's live
ids alone — no freshness of the acknowledged id is required. -/
theorem place_track_weak (market_id token_id : String) (sd : Side)
    (size price : ℚ) (st : BotState) (pe : PlaceExternal)
    (hsdLive : liveIds sd st = []) :
    SideInv sd (place_limit_order st market_id token_id sd size price pe).1
        (trackQuote
          (place_limit_order st market_id token_id sd size price pe)) ∧
    ∀ sd2, sd2 ≠ sd →
      liveIds sd2 (place_limit_order st market_id token_id sd size price pe).1
        = liveIds sd2 st := by
  by_cases hid : placedId pe = []
  · obtain ⟨h1, h2⟩ := place_no_id st market_id token_id sd size price pe hid
    rw [h1, h2]
    exact ⟨Or.inl hsdLive, fun _ _ => rfl⟩
  · rcases pe with ⟨ms, post, now⟩
    cases ms with
    | error e => exact absurd rfl hid
    | ok m =>
      cases post with
      | error e => exact absurd rfl hid
      | ok oid =>
        cases hoid : truthyOid oid with
        | none => exact absurd (by simp [placedId, hoid]) hid
        | some s =>
          obtain ⟨horders, hresp⟩ :=
            place_with_id st market_id token_id sd size price m oid now s hoid
          have hlive : liveIds sd (place_limit_order st market_id token_id sd
              size price ⟨Except.ok m, Except.ok oid, now⟩).1 = [s] := by
            simp only [liveIds, horders, liveIdsL_append]
            rw [show liveIdsL sd st.orders = [] from hsdLive, liveIdsL_cons]
            simp [placedOrder, liveIdsL]
          constructor
          · obtain ⟨o2, hfind, hid2⟩ := find?_id_exists
              (place_limit_order st market_id token_id sd size price
                ⟨Except.ok m, Except.ok oid, now⟩).1.orders s
              (placedOrder market_id token_id sd size price m now s)
              (by
                rw [horders]
                exact List.mem_append_right _ (by simp))
              rfl
            right
            refine ⟨o2, ?_, ?_⟩
            · simp only [trackQuote, hresp]
              exact hfind
            · rw [hid2]
              exact hlive
          · intro sd2 hsd2
            simp only [liveIds, horders, liveIdsL_append]
            rw [liveIdsL_cons]
            rw [if_neg (fun hcc => hsd2 (by
              have h2 := hcc.2
              simp only [placedOrder] at h2
              exact h2.symm))]
            simp [liveIdsL]

/-- One loop iteration preserves both per-side invariants whenever the
cycle's cancel oracles confirm the ids they are asked to cancel. -/
theorem strategyCycle_weak (market_id token_id : String)
    (max_spread size : ℚ) (st : BotState) (actB actS : Option Order)
    (ev : CycleEvents) (hB : SideInv Side.buy st actB)
    (hS : SideInv Side.sell st actS) (hObed : ObedientEv ev) :
    SideInv Side.buy
        (strategyCycle market_id token_id max_spread size st actB actS ev).1
        (strategyCycle market_id token_id max_spread size st actB actS ev).2.1 ∧
    SideInv Side.sell
        (strategyCycle market_id token_id max_spread size st actB actS ev).1
        (strategyCycle market_id token_id max_spread size st actB actS ev).2.2 := by
  by_cases hm : get_mid_price_result ev.book = 0
  · simp only [strategyCycle, if_pos hm]
    exact ⟨hB, hS⟩
  · simp only [strategyCycle, if_neg hm]
    set st1 := cancelActive st actB ev.cancelBuy with hst1
    set st2 := cancelActive st1 actS ev.cancelSell with hst2
    set pb := place_limit_order st2 market_id token_id Side.buy size
      (max (1/100) (round2 (get_mid_price_result ev.book - max_spread)))
      ev.placeBuy with hpb
    set ps := place_limit_order pb.1 market_id token_id Side.sell size
      (min (99/100) (round2 (get_mid_price_result ev.book + max_spread)))
      ev.placeSell with hps
    have hb1 : liveIds Side.buy st1 = [] := by
      rw [hst1]
      exact cancelActive_own st actB ev.cancelBuy Side.buy hObed.1 hB
    have hS1 : SideInv Side.sell st1 actS := by
      rw [hst1]
      exact cancelActive_other st actB actS ev.cancelBuy Side.sell hS
    have hs2 : liveIds Side.sell st2 = [] := by
      rw [hst2]
      exact cancelActive_own st1 actS ev.cancelSell Side.sell hObed.2 hS1
    have hb2 : liveIds Side.buy st2 = [] := by
      rw [hst2]
      exact cancelActive_empty st1 actS ev.cancelSell Side.buy hb1
    obtain ⟨hBpb, hOpb⟩ := place_track_weak market_id token_id Side.buy size
      (max (1/100) (round2 (get_mid_price_result ev.book - max_spread)))
      st2 ev.placeBuy hb2
    rw [← hpb] at hBpb hOpb
    have hsell : liveIds Side.sell pb.1 = [] := by
      rw [hOpb Side.sell (by decide)]
      exact hs2
    obtain ⟨hSps, hOps⟩ := place_track_weak market_id token_id Side.sell size
      (min (99/100) (round2 (get_mid_price_result ev.book + max_spread)))
      pb.1 ev.placeSell hsell
    rw [← hps] at hSps hOps
    refine ⟨?_, hSps⟩
    have heq : liveIds Side.buy ps.1 = liveIds Side.buy pb.1 :=
      hOps Side.buy (by decide)
    unfold SideInv at hBpb ⊢
    rw [heq]
    exact hBpb

/-- Running any schedule of cycles preserves both per-side invariants,
assuming only that every cancel response confirms the cancelled id. -/
theorem runCycles_weak (market_id token_id : String) (max_spread size : ℚ)
    (evs : List CycleEvents) :
    ∀ (st : BotState) (actB actS : Option Order),
      SideInv Side.buy st actB → SideInv Side.sell st actS →
      (∀ ev ∈ evs, ObedientEv ev) →
      SideInv Side.buy
          (runCycles market_id token_id max_spread size st actB actS evs).1
          (runCycles market_id token_id max_spread size st actB actS evs).2.1 ∧
      SideInv Side.sell
          (runCycles market_id token_id max_spread size st actB actS evs).1
          (runCycles market_id token_id max_spread size st actB actS evs).2.2 := by
  induction evs with
  | nil =>
    intro st actB actS hB hS _
    exact ⟨hB, hS⟩
  | cons ev evs ih =>
    intro st actB actS hB hS hObed
    obtain ⟨hB2, hS2⟩ := strategyCycle_weak market_id token_id max_spread size
      st actB actS ev hB hS (hObed ev (List.mem_cons_self ev evs))
    have hrec := ih
      (strategyCycle market_id token_id max_spread size st actB actS ev).1
      (strategyCycle market_id token_id max_spread size st actB actS ev).2.1
      (strategyCycle market_id token_id max_spread size st actB actS ev).2.2
      hB2 hS2 (fun e he => hObed e (List.mem_cons_of_mem ev he))
    simpa [runCycles] using hrec

/-! ## Concrete runs used as witnesses and counterexamples -/

/-- A cancel oracle that confirms every requested id. -/
def okCancel : String → Except String CancelResp := fun s => Except.ok ⟨[s]⟩

/-- A cancel oracle whose response confirms nothing (the requested id is
absent from the returned canceled-set). -/
def noCancel : String → Except String CancelResp := fun _ => Except.ok ⟨[]⟩

/-- A placement context whose exchange leg succeeds with the given id. -/
def okPlace (s : String) : PlaceExternal :=
  ⟨Except.ok 1, Except.ok (some s), 0⟩

/-- An order book with no resting orders: the mid price falls back to 0.5. -/
def emptyBook : Except String (List BookOrder) := Except.ok []

theorem okCancel_obedient : Obedient okCancel :=
  fun s => ⟨⟨[s]⟩, rfl, by simp⟩

theorem mid_emptyBook : get_mid_price_result emptyBook = 1/2 := rfl

theorem get_mid_price_nil : get_mid_price [] = 1/2 := rfl

theorem mid_emptyBook_ne : ¬ (get_mid_price_result emptyBook = 0) := by
  rw [mid_emptyBook]
  norm_num

/-- First cycle of the example runs: both placements acknowledged. -/
def wEv1 : CycleEvents :=
  ⟨emptyBook, okCancel, okCancel, okPlace "b1", okPlace "s1"⟩

/-- Second cycle with confirming cancels. -/
def wEv2 : CycleEvents :=
  ⟨emptyBook, okCancel, okCancel, okPlace "b2", okPlace "s2"⟩

/-- Second cycle whose cancel responses confirm nothing: the stale quotes
stay live on the exchange and in the registry. -/
def cexEv2 : CycleEvents :=
  ⟨emptyBook, noCancel, noCancel, okPlace "b2", okPlace "s2"⟩

theorem evPlaced_wEv1 : evPlacedIds wEv1 = ["b1", "s1"] := by
  unfold evPlacedIds
  rw [show wEv1.book = emptyBook from rfl, mid_emptyBook]
  rw [if_neg (by norm_num : ¬ ((1 : ℚ)/2 = 0))]
  simp [wEv1, placedId, okPlace, truthyOid]

theorem evPlaced_wEv2 : evPlacedIds wEv2 = ["b2", "s2"] := by
  unfold evPlacedIds
  rw [show wEv2.book = emptyBook from rfl, mid_emptyBook]
  rw [if_neg (by norm_num : ¬ ((1 : ℚ)/2 = 0))]
  simp [wEv2, placedId, okPlace, truthyOid]

/-- Claim C1, counterexample: the loop drops its quote references after a
cancel regardless of the outcome.  With two cycles over an empty book in
which the second cycle's cancel responses confirm nothing, the registry
holds two LIVE buy orders placed by the strategy at the instant between
the second and third cycles — the claimed at-most-one-per-side bound is
false as stated. -/
theorem quote_pair_counterexample :
    (liveIds Side.buy (runCycles "m" "t" 0 1 initBot none none
        [wEv1, cexEv2]).1).length = 2 := by
  have hne : ¬ ((1 : ℚ)/2 = 0) := by norm_num
  simp [runCycles, strategyCycle, cancelActive, cancel_order,
    place_limit_order, trackQuote, respOrderId, truthyOid, liveIds, liveIdsL,
    initBot, wEv1, cexEv2, okCancel, noCancel, okPlace, emptyBook,
    get_mid_price_nil, hne, List.find?, get_mid_price_result]

/-- Claim C1, amended: provided every cancel response issued during the
run confirms the cancelled id, then at every observable instant between
cycles (after any prefix of the schedule, starting from a fresh bot) at
most one LIVE buy order and at most one LIVE sell order placed by the
strategy rest in the registry.  No assumption on the acknowledged order
ids is needed: a cancel marks every registry entry carrying the requested
id. -/
theorem quote_pair_invariant (market_id token_id : String)
    (max_spread size : ℚ) (evs : List CycleEvents) (k : ℕ)
    (hObed : ∀ ev ∈ evs, ObedientEv ev) :
    (liveIds Side.buy (runCycles market_id token_id max_spread size initBot
        none none (evs.take k)).1).length ≤ 1 ∧
    (liveIds Side.sell (runCycles market_id token_id max_spread size initBot
        none none (evs.take k)).1).length ≤ 1 := by
  have hObedK : ∀ ev ∈ evs.take k, ObedientEv ev := by
    intro ev hev
    apply hObed
    rw [← List.take_append_drop k evs]
    exact List.mem_append_left _ hev
  obtain ⟨hB, hS⟩ := runCycles_weak market_id token_id max_spread size
    (evs.take k) initBot none none (Or.inl rfl) (Or.inl rfl) hObedK
  exact ⟨SideInv_length_le _ _ _ hB, SideInv_length_le _ _ _ hS⟩

theorem quote_pair_invariant_witness :
    (liveIds Side.buy (runCycles "m" "t" (3/100) 5 initBot none none
        ([wEv1, wEv2].take 2)).1).length ≤ 1 ∧
    (liveIds Side.sell (runCycles "m" "t" (3/100) 5 initBot none none
        ([wEv1, wEv2].take 2)).1).length ≤ 1 :=
  quote_pair_invariant "m" "t" (3/100) 5 [wEv1, wEv2] 2
    (by
      intro ev hev
      rcases List.mem_cons.mp hev with rfl | hev
      · exact ⟨okCancel_obedient, okCancel_obedient⟩
      rcases List.mem_cons.mp hev with rfl | hev
      · exact ⟨okCancel_obedient, okCancel_obedient⟩
      cases hev)

/-- Claim C2, counterexample: a cancel whose response confirms nothing
leaves the stale registry entry LIVE while the loop forgets it.  After a
two-cycle run whose second cycle's cancels confirm nothing, then even
though the run completes its full schedule and its final cancellations all
succeed, two orders remain LIVE in the registry — the claimed
zero-LIVE-orders postcondition is false as stated. -/
theorem run_postcondition_counterexample :
    ((run_strategy "m" "t" 2 0 initBot [wEv1, cexEv2] okCancel
        okCancel).orders.filter
      (fun o => decide (o.status = OrderStatus.live))).length = 2 := by
  have hne : ¬ ((1 : ℚ)/2 = 0) := by norm_num
  simp [run_strategy, runCycles, strategyCycle, cancelActive, cancel_order,
    place_limit_order, trackQuote, respOrderId, truthyOid,
    initBot, wEv1, cexEv2, okCancel, noCancel, okPlace, emptyBook,
    get_mid_price_nil, hne, List.find?, get_mid_price_result]

/-- Claim C2, amended: provided every cancel response issued during the
run (the per-cycle ones and the two final ones) confirms the cancelled
id, a `run_strategy` that starts from a fresh bot, completes its schedule
and performs its final cancellations leaves zero orders with status LIVE
in the registry.  No assumption on the acknowledged order ids is needed:
a cancel marks every registry entry carrying the requested id. -/
theorem run_postcondition (market_id token_id : String)
    (risk_amount max_spread : ℚ) (evs : List CycleEvents)
    (fcB fcS : String → Except String CancelResp)
    (hObed : ∀ ev ∈ evs, ObedientEv ev)
    (hObB : Obedient fcB) (hObS : Obedient fcS) :
    ∀ o ∈ (run_strategy market_id token_id risk_amount max_spread initBot
        evs fcB fcS).orders, o.status ≠ OrderStatus.live := by
  obtain ⟨hB, hS⟩ := runCycles_weak market_id token_id max_spread
    (risk_amount / 2) evs initBot none none (Or.inl rfl) (Or.inl rfl) hObed
  set r := runCycles market_id token_id max_spread (risk_amount / 2) initBot
    none none evs with hr
  have hb1 : liveIds Side.buy (cancelActive r.1 r.2.1 fcB) = [] :=
    cancelActive_own r.1 r.2.1 fcB Side.buy hObB hB
  have hS1 : SideInv Side.sell (cancelActive r.1 r.2.1 fcB) r.2.2 :=
    cancelActive_other r.1 r.2.1 r.2.2 fcB Side.sell hS
  have hs2 : liveIds Side.sell
      (cancelActive (cancelActive r.1 r.2.1 fcB) r.2.2 fcS) = [] :=
    cancelActive_own (cancelActive r.1 r.2.1 fcB) r.2.2 fcS Side.sell hObS hS1
  have hbuy2 : liveIds Side.buy
      (cancelActive (cancelActive r.1 r.2.1 fcB) r.2.2 fcS) = [] :=
    cancelActive_empty (cancelActive r.1 r.2.1 fcB) r.2.2 fcS Side.buy hb1
  have hrun : run_strategy market_id token_id risk_amount max_spread initBot
      evs fcB fcS = cancelActive (cancelActive r.1 r.2.1 fcB) r.2.2 fcS := rfl
  rw [hrun]
  intro o ho hlv
  cases hsd : o.side
  · have hmem2 : o.id ∈ liveIds Side.buy
        (cancelActive (cancelActive r.1 r.2.1 fcB) r.2.2 fcS) :=
      (mem_liveIdsL Side.buy _ o.id).mpr ⟨o, ho, hlv, hsd, rfl⟩
    rw [hbuy2] at hmem2
    cases hmem2
  · have hmem2 : o.id ∈ liveIds Side.sell
        (cancelActive (cancelActive r.1 r.2.1 fcB) r.2.2 fcS) :=
      (mem_liveIdsL Side.sell _ o.id).mpr ⟨o, ho, hlv, hsd, rfl⟩
    rw [hs2] at hmem2
    cases hmem2

theorem run_postcondition_witness :
    ((run_strategy "m" "t" 2 0 initBot [wEv1] okCancel okCancel).orders.filter
      (fun o => decide (o.status = OrderStatus.live))).length = 0 := by
  have h := run_postcondition "m" "t" 2 0 [wEv1] okCancel okCancel
    (by
      intro ev hev
      rcases List.mem_cons.mp hev with rfl | hev
      · exact ⟨okCancel_obedient, okCancel_obedient⟩
      cases hev)
    okCancel_obedient okCancel_obedient
  rw [List.length_eq_zero]
  rw [List.filter_eq_nil_iff]
  intro o ho
  simpa using h o ho

/-! ## Registry status invariant (claim C10) -/

/-- Bot states reachable through the registry-touching operations, from
the fresh state built by `__init__`.  (`run_strategy` mutates the registry
only through `place_limit_order` and `cancel_order`, so every state it
produces is reachable in this sense.) -/
inductive Reachable : BotState → Prop where
  | init : Reachable initBot
  | place (st : BotState) (market_id token_id : String) (side : Side)
      (size price : ℚ) (ext : PlaceExternal) : Reachable st →
      Reachable (place_limit_order st market_id token_id side size price ext).1
  | cancel (st : BotState) (oid : String) (ext : Except String CancelResp) :
      Reachable st → Reachable (cancel_order st oid ext).1
  | pnl (st : BotState) (resp : Except String (List Trade)) (now : ℕ) :
      Reachable st → Reachable (get_pnl st resp now).1

theorem order_set_canceled_eq (o : Order)
    (h : o.status = OrderStatus.canceled) :
    { o with status := OrderStatus.canceled } = o := by
  rw [← h]

theorem reachable_status (st : BotState) (h : Reachable st) :
    ∀ o ∈ st.orders,
      o.status = OrderStatus.live ∨ o.status = OrderStatus.canceled := by
  induction h with
  | init => intro o ho; cases ho
  | place st market_id token_id side size price ext hst ih =>
    intro o ho
    rcases ext with ⟨ms, post, now⟩
    cases ms with
    | error e => exact ih o ho
    | ok m =>
      cases post with
      | error e => exact ih o ho
      | ok oid =>
        cases hoid : truthyOid oid with
        | none =>
          rw [(place_no_id st market_id token_id side size price
            ⟨Except.ok m, Except.ok oid, now⟩ (by simp [placedId, hoid])).1]
            at ho
          exact ih o ho
        | some s =>
          rw [(place_with_id st market_id token_id side size price m oid now
            s hoid).1] at ho
          rcases List.mem_append.mp ho with ho | ho
          · exact ih o ho
          · rw [List.mem_singleton] at ho
            subst ho
            exact Or.inl rfl
  | cancel st oid ext hst ih =>
    intro o ho
    cases ext with
    | error e => exact ih o ho
    | ok r =>
      simp only [cancel_order] at ho
      rw [List.mem_map] at ho
      obtain ⟨o2, ho2, rfl⟩ := ho
      by_cases hc : o2.id = oid ∧ oid ∈ r.canceled
      · rw [if_pos hc]
        exact Or.inr rfl
      · rw [if_neg hc]
        exact ih o2 ho2
  | pnl st resp now hst ih =>
    intro o ho
    cases resp with
    | error e => exact ih o ho
    | ok trades => exact ih o ho

/-- Claim C10: every order ever stored in the registry is recorded with
status `'live'` by `place_limit_order`; the only status change any
operation performs is `'live'` to `'canceled'` through `cancel_order`
(pointwise, an entry is preserved or set to canceled, and an entry that
actually changes was live and becomes canceled); `PENDING`/`FAILED` are
never stored; and no operation removes a registry entry (`place` appends,
`cancel` is length- and position-preserving, `get_pnl` leaves the registry
untouched). -/
theorem registry_status_invariant :
    (∀ st, Reachable st → ∀ o ∈ st.orders,
       o.status = OrderStatus.live ∨ o.status = OrderStatus.canceled) ∧
    (∀ st market_id token_id side size price ext, ∃ tail,
       (place_limit_order st market_id token_id side size price ext).1.orders
           = st.orders ++ tail ∧
       ∀ o ∈ tail, o.status = OrderStatus.live) ∧
    (∀ st oid ext,
       (cancel_order st oid ext).1.orders.length = st.orders.length ∧
       ∀ i : ℕ, ∀ o o2, st.orders[i]? = some o →
         (cancel_order st oid ext).1.orders[i]? = some o2 →
         o2 = o ∨ o2 = { o with status := OrderStatus.canceled }) ∧
    (∀ st, Reachable st → ∀ oid ext (i : ℕ) o o2,
       st.orders[i]? = some o →
       (cancel_order st oid ext).1.orders[i]? = some o2 →
       o2 ≠ o →
       o.status = OrderStatus.live ∧ o2.status = OrderStatus.canceled) ∧
    (∀ st resp now, (get_pnl st resp now).1.orders = st.orders) := by
  have hcancel : ∀ st oid ext,
      (cancel_order st oid ext).1.orders.length = st.orders.length ∧
      ∀ i : ℕ, ∀ o o2, st.orders[i]? = some o →
        (cancel_order st oid ext).1.orders[i]? = some o2 →
        o2 = o ∨ o2 = { o with status := OrderStatus.canceled } := by
    intro st oid ext
    cases ext with
    | error e =>
      refine ⟨rfl, ?_⟩
      intro i o o2 h1 h2
      rw [show (cancel_order st oid (Except.error e)).1 = st from rfl] at h2
      rw [h1] at h2
      exact Or.inl (Option.some.injEq _ _ ▸ h2).symm
    | ok r =>
      constructor
      · simp [cancel_order]
      · intro i o o2 h1 h2
        simp only [cancel_order, List.getElem?_map, h1, Option.map_some']
          at h2
        rw [Option.some.injEq] at h2
        subst h2
        by_cases hc : o.id = oid ∧ oid ∈ r.canceled
        · rw [if_pos hc]
          exact Or.inr rfl
        · rw [if_neg hc]
          exact Or.inl rfl
  refine ⟨reachable_status, ?_, hcancel, ?_, ?_⟩
  · intro st market_id token_id side size price ext
    rcases ext with ⟨ms, post, now⟩
    cases ms with
    | error e => exact ⟨[], by rw [List.append_nil]; rfl, by intro o ho; cases ho⟩
    | ok m =>
      cases post with
      | error e =>
        exact ⟨[], by rw [List.append_nil]; rfl, by intro o ho; cases ho⟩
      | ok oid =>
        cases hoid : truthyOid oid with
        | none =>
          refine ⟨[], ?_, by intro o ho; cases ho⟩
          rw [(place_no_id st market_id token_id side size price
            ⟨Except.ok m, Except.ok oid, now⟩ (by simp [placedId, hoid])).1]
          rw [List.append_nil]
        | some s =>
          refine ⟨[placedOrder market_id token_id side size price m now s],
            (place_with_id st market_id token_id side size price m oid now
              s hoid).1, ?_⟩
          intro o ho
          rw [List.mem_singleton] at ho
          subst ho
          rfl
  · intro st hst oid ext i o o2 h1 h2 hne
    have hmem : o ∈ st.orders := by
      have := List.getElem?_mem h1
      exact this
    rcases (hcancel st oid ext).2 i o o2 h1 h2 with heq | heq
    · exact absurd heq hne
    · subst heq
      rcases reachable_status st hst o hmem with hl | hl
      · exact ⟨hl, rfl⟩
      · exact absurd (order_set_canceled_eq o hl) hne
  · intro st resp now
    cases resp with
    | error e => rfl
    | ok trades => rfl

theorem registry_status_invariant_witness :
    (placedOrder "m" "t" Side.buy (-5) 7 1 0 "a").status = OrderStatus.live ∨
    (placedOrder "m" "t" Side.buy (-5) 7 1 0 "a").status
        = OrderStatus.canceled :=
  registry_status_invariant.1
    (place_limit_order initBot "m" "t" Side.buy (-5) 7
      ⟨Except.ok 1, Except.ok (some "a"), 0⟩).1
    (Reachable.place initBot "m" "t" Side.buy (-5) 7
      ⟨Except.ok 1, Except.ok (some "a"), 0⟩ Reachable.init)
    (placedOrder "m" "t" Side.buy (-5) 7 1 0 "a")
    (by
      rw [(place_with_id initBot "m" "t" Side.buy (-5) 7 1 (some "a") 0 "a"
        (by simp [truthyOid])).1]
      simp [initBot])
